import Mathlib

/-!
# Verification of the datasync-mongodb-sdk query/reference-resolution core

This file embeds the core of the Contentstack DataSync MongoDB SDK
(`src/stack.ts`, `dist/util.js`) as executable Lean definitions and proves or
refutes the specification claims about it.

The embedding covers:
* the cycle detector `checkCyclic` / `getParents` (dist/util.js),
* the JSON-ish document model and the reference resolver
  `includeReferencesI` (src/stack.ts),
* the query-state accumulator and compiler: `only`, `except`, `contentType`,
  `preProcess`, `postProcess`, `cleanup`, `find` (src/stack.ts).

JavaScript objects are modelled as insertion-ordered association lists,
`lodash.uniq` as a first-occurrence deduplication, and the asynchronous
promise fan-out of the resolver is serialised left-to-right (fields are
processed in object insertion order, threading the shared ancestry map).
Store fetches are modelled against a pure list-of-documents store; the
recursive re-entry of the resolver after a fetch is metered by an explicit
fuel parameter, so non-termination of the source recursion corresponds to
the model returning `none` at every fuel.
-/

namespace DataSync

/-! ## Cycle detector (dist/util.js)

`lodash.uniq` keeps the first occurrence of each element, in order. -/

/-- Model of `lodash.uniq`: deduplicate, keeping the first occurrence. -/
def uniqList : List String → List String
  | [] => []
  | a :: rest => a :: uniqList (rest.filter (fun x => x ≠ a))
termination_by l => l.length
decreasing_by
  simp only [List.length_cons]
  exact Nat.lt_succ_of_le (List.length_filter_le _ _)

/-- An ancestry map: parent uid mapped to the list of child uids it has
expanded, in insertion order (a JS object of arrays). -/
abbrev AncestryMap := List (String × List String)

/-- Model of `getParents` from dist/util.js: all keys of `mapping` whose child list
contains `child`. -/
def getParents (child : String) (mapping : AncestryMap) : List String :=
  (mapping.filter (fun kv => kv.2.contains child)).map Prod.fst

/-- The `for (let i = 0; i < list.length; i++)` loop of `checkCyclic`
(dist/util.js lines 49-56), with an explicit fuel.  Each iteration reads
`list[i]`, returns `true` when `uid` is among its parents, and otherwise
appends the parents to the (deduplicated) worklist. -/
def checkCyclicLoop (uid : String) (mapping : AncestryMap) :
    Nat → Nat → List String → Bool
  | 0, _, _ => false
  | fuel + 1, i, list =>
    if h : i < list.length then
      if uid ∈ getParents (list.get ⟨i, h⟩) mapping then true
      else checkCyclicLoop uid mapping fuel (i + 1)
        (uniqList (list ++ getParents (list.get ⟨i, h⟩) mapping))
    else false

/-- Model of `checkCyclic` from dist/util.js: worklist search for `uid` among the
iterated parents of `uid`.  The loop runs at most once per distinct key of
`mapping` plus one, which `mapping.length + 1` units of fuel cover (proved
below: the fuel never runs out before the loop's own exit condition). -/
def checkCyclic (uid : String) (mapping : AncestryMap) : Bool :=
  checkCyclicLoop uid mapping (mapping.length + 1) 0 [uid]

/-- The parent→child edge relation recorded in an ancestry map: `p` has
expanded child `c`. -/
def hasEdge (mapping : AncestryMap) (p c : String) : Prop :=
  ∃ kv ∈ mapping, kv.1 = p ∧ c ∈ kv.2

/-- A uid is cyclic when it reaches itself by a nonempty chain of recorded
parent→child edges. -/
def CyclicSpec (uid : String) (mapping : AncestryMap) : Prop :=
  Relation.TransGen (hasEdge mapping) uid uid

/-! ### Lemmas about `uniqList` and `getParents` -/

theorem mem_uniqList {a : String} : ∀ {l : List String}, a ∈ uniqList l ↔ a ∈ l
  | [] => by simp [uniqList]
  | b :: rest => by
    rw [uniqList]
    by_cases hab : a = b
    · subst hab; simp
    · simp only [List.mem_cons, hab, false_or]
      rw [mem_uniqList (l := rest.filter (fun x => x ≠ b))]
      simp [List.mem_filter, hab]
termination_by l => l.length
decreasing_by
  simp only [List.length_cons]
  exact Nat.lt_succ_of_le (List.length_filter_le _ _)

theorem nodup_uniqList : ∀ (l : List String), (uniqList l).Nodup
  | [] => by simp [uniqList]
  | b :: rest => by
    rw [uniqList]
    refine List.nodup_cons.2 ⟨?_, nodup_uniqList _⟩
    rw [mem_uniqList]
    simp [List.mem_filter]
termination_by l => l.length
decreasing_by
  simp only [List.length_cons]
  exact Nat.lt_succ_of_le (List.length_filter_le _ _)

theorem uniqList_append_of_nodup :
    ∀ {l : List String}, l.Nodup → ∀ (r : List String),
      uniqList (l ++ r) = l ++ uniqList (r.filter (fun x => x ∉ l))
  | [], _, r => by simp
  | b :: rest, h, r => by
    rw [List.cons_append, uniqList]
    obtain ⟨hb, hrest⟩ := List.nodup_cons.1 h
    have hfl : (rest ++ r).filter (fun x => x ≠ b)
        = rest ++ r.filter (fun x => x ≠ b) := by
      rw [List.filter_append]
      congr 1
      refine List.filter_eq_self.2 (fun x hx => ?_)
      simp only [ne_eq, decide_eq_true_eq]
      intro hxb
      exact hb (hxb ▸ hx)
    rw [hfl, uniqList_append_of_nodup hrest (r.filter (fun x => x ≠ b))]
    simp only [List.cons_append, List.append_cancel_left_eq, List.cons.injEq,
      true_and]
    congr 1
    rw [List.filter_filter]
    apply List.filter_congr
    intro x _
    by_cases hxb : x = b <;> simp [hxb]
termination_by l => l.length
decreasing_by
  simp only [List.length_cons]
  omega

theorem mem_getParents {p c : String} {mapping : AncestryMap} :
    p ∈ getParents c mapping ↔ hasEdge mapping p c := by
  simp only [getParents, hasEdge, List.mem_map, List.mem_filter]
  constructor
  · rintro ⟨kv, ⟨hmem, hcont⟩, hfst⟩
    exact ⟨kv, hmem, hfst, by simpa using hcont⟩
  · rintro ⟨kv, hmem, hfst, hc⟩
    exact ⟨kv, ⟨hmem, by simpa using hc⟩, hfst⟩

theorem getParents_subset_keys {c : String} {mapping : AncestryMap} :
    ∀ p ∈ getParents c mapping, p ∈ mapping.map Prod.fst := by
  intro p hp
  simp only [getParents, List.mem_map, List.mem_filter] at hp
  obtain ⟨kv, ⟨hmem, _⟩, hfst⟩ := hp
  exact List.mem_map.2 ⟨kv, hmem, hfst⟩

/-! ### Soundness and completeness of the worklist loop -/

theorem checkCyclicLoop_sound {uid : String} {mapping : AncestryMap} :
    ∀ (fuel i : Nat) (list : List String),
      (∀ x ∈ list, Relation.ReflTransGen (hasEdge mapping) x uid) →
      checkCyclicLoop uid mapping fuel i list = true →
      CyclicSpec uid mapping := by
  intro fuel
  induction fuel with
  | zero => intro i list _ h; simp [checkCyclicLoop] at h
  | succ fuel ih =>
    intro i list hanc h
    rw [checkCyclicLoop] at h
    split at h
    case isTrue hlt =>
      split at h
      case isTrue hmem =>
        have hx : list.get ⟨i, hlt⟩ ∈ list := List.get_mem _ _ _
        have hedge : hasEdge mapping uid (list.get ⟨i, hlt⟩) := mem_getParents.1 hmem
        exact Relation.TransGen.head' hedge (hanc _ hx)
      case isFalse hmem =>
        refine ih (i + 1) _ ?_ h
        intro x hxmem
        rw [mem_uniqList, List.mem_append] at hxmem
        rcases hxmem with hx | hx
        · exact hanc x hx
        · have hedge : hasEdge mapping x (list.get ⟨i, hlt⟩) := mem_getParents.1 hx
          exact Relation.ReflTransGen.head hedge (hanc _ (List.get_mem _ _ _))
    case isFalse => simp at h

theorem checkCyclicLoop_complete {uid : String} {mapping : AncestryMap} :
    ∀ (fuel i : Nat) (list : List String),
      list.Nodup →
      i ≤ list.length →
      uid ∈ list →
      (∀ x ∈ list.take i,
        (∀ p ∈ getParents x mapping, p ∈ list) ∧ uid ∉ getParents x mapping) →
      (∀ x ∈ list, x = uid ∨ x ∈ mapping.map Prod.fst) →
      (list.length - i) +
        ((mapping.map Prod.fst).toFinset \ list.toFinset).card ≤ fuel →
      checkCyclicLoop uid mapping fuel i list = false →
      ∃ L : List String, uid ∈ L ∧
        ∀ x ∈ L, (∀ p ∈ getParents x mapping, p ∈ L) ∧
          uid ∉ getParents x mapping := by
  intro fuel
  induction fuel with
  | zero =>
    intro i list hnd hile huid htake _ hfuel _
    have hlen : list.length = i := by omega
    refine ⟨list, huid, ?_⟩
    intro x hx
    have : x ∈ list.take i := by
      rw [← hlen, List.take_length]; exact hx
    exact htake x this
  | succ fuel ih =>
    intro i list hnd hile huid htake hdom hfuel h
    rw [checkCyclicLoop] at h
    split at h
    case isFalse hlt =>
      have hlen : list.length = i := by omega
      refine ⟨list, huid, ?_⟩
      intro x hx
      have : x ∈ list.take i := by
        rw [← hlen, List.take_length]; exact hx
      exact htake x this
    case isTrue hlt =>
      split at h
      case isTrue => exact absurd h (by simp)
      case isFalse hnotmem =>
        set xi := list.get ⟨i, hlt⟩ with hxi
        set parent := getParents xi mapping with hparent
        set delta := uniqList (parent.filter (fun p => p ∉ list)) with hdelta
        have happ : uniqList (list ++ parent) = list ++ delta :=
          uniqList_append_of_nodup hnd parent
        rw [happ] at h
        have hdmem : ∀ {p}, p ∈ delta ↔ p ∈ parent ∧ p ∉ list := by
          intro p
          rw [hdelta, mem_uniqList, List.mem_filter]
          simp
        have hdnd : delta.Nodup := nodup_uniqList _
        have hdsub : ∀ p ∈ delta, p ∈ mapping.map Prod.fst := by
          intro p hp
          exact getParents_subset_keys p (hdmem.1 hp).1
        -- invariants for the tail call
        have hnd' : (list ++ delta).Nodup := by
          rw [List.nodup_append]
          exact ⟨hnd, hdnd, fun a ha hb => (hdmem.1 hb).2 ha⟩
        have hile' : i + 1 ≤ (list ++ delta).length := by
          rw [List.length_append]; omega
        have huid' : uid ∈ list ++ delta := List.mem_append_left _ huid
        have htakelist : (list ++ delta).take (i + 1) = list.take i ++ [xi] := by
          rw [List.take_append_of_le_length (by omega), List.take_succ]
          congr
          simp only [List.getElem?_eq_getElem hlt, Option.toList_some]
          rfl
        have htake' : ∀ x ∈ (list ++ delta).take (i + 1),
            (∀ p ∈ getParents x mapping, p ∈ list ++ delta) ∧
              uid ∉ getParents x mapping := by
          intro x hx
          rw [htakelist, List.mem_append] at hx
          rcases hx with hx | hx
          · obtain ⟨h1, h2⟩ := htake x hx
            exact ⟨fun p hp => List.mem_append_left _ (h1 p hp), h2⟩
          · simp only [List.mem_singleton] at hx
            subst hx
            refine ⟨?_, hnotmem⟩
            intro p hp
            by_cases hpl : p ∈ list
            · exact List.mem_append_left _ hpl
            · exact List.mem_append_right _ (hdmem.2 ⟨hp, hpl⟩)
        have hdom' : ∀ x ∈ list ++ delta, x = uid ∨ x ∈ mapping.map Prod.fst := by
          intro x hx
          rcases List.mem_append.1 hx with hx | hx
          · exact hdom x hx
          · exact Or.inr (hdsub x hx)
        have hfuel' : ((list ++ delta).length - (i + 1)) +
            ((mapping.map Prod.fst).toFinset \ (list ++ delta).toFinset).card ≤
              fuel := by
          have hsetapp : (list ++ delta).toFinset = list.toFinset ∪ delta.toFinset :=
            List.toFinset_append
          have hsd : (mapping.map Prod.fst).toFinset \ (list ++ delta).toFinset =
              ((mapping.map Prod.fst).toFinset \ list.toFinset) \ delta.toFinset := by
            rw [hsetapp]
            ext a
            simp only [Finset.mem_sdiff, Finset.mem_union]
            tauto
          have hsub : delta.toFinset ⊆
              (mapping.map Prod.fst).toFinset \ list.toFinset := by
            intro p hp
            rw [List.mem_toFinset] at hp
            rw [Finset.mem_sdiff, List.mem_toFinset, List.mem_toFinset]
            exact ⟨hdsub p hp, (hdmem.1 hp).2⟩
          have hcard : (((mapping.map Prod.fst).toFinset \ list.toFinset) \
              delta.toFinset).card =
              ((mapping.map Prod.fst).toFinset \ list.toFinset).card -
                delta.toFinset.card := Finset.card_sdiff hsub
          have hdcard : delta.toFinset.card = delta.length :=
            List.toFinset_card_of_nodup hdnd
          have hdle : delta.toFinset.card ≤
              ((mapping.map Prod.fst).toFinset \ list.toFinset).card :=
            Finset.card_le_card hsub
          rw [hsd, hcard, hdcard, List.length_append]
          rw [List.length_append] at hile'
          omega
        exact ih (i + 1) (list ++ delta) hnd' hile' huid' htake' hdom' hfuel' h

theorem checkCyclic_false_closure {uid : String} {mapping : AncestryMap}
    (h : checkCyclic uid mapping = false) :
    ∃ L : List String, uid ∈ L ∧
      ∀ x ∈ L, (∀ p ∈ getParents x mapping, p ∈ L) ∧
        uid ∉ getParents x mapping := by
  refine checkCyclicLoop_complete (mapping.length + 1) 0 [uid]
    (by simp) (by simp) (by simp) (by simp) (by simp) ?_ h
  have h1 : ((mapping.map Prod.fst).toFinset \ [uid].toFinset).card ≤
      (mapping.map Prod.fst).toFinset.card := Finset.card_le_card (Finset.sdiff_subset)
  have h2 : (mapping.map Prod.fst).toFinset.card ≤ (mapping.map Prod.fst).length :=
    List.toFinset_card_le _
  have h3 : (mapping.map Prod.fst).length = mapping.length := List.length_map _ _
  simp only [List.length_singleton]
  omega

/-- C1: `checkCyclic(uid, map)` returns `true` exactly when `uid` reaches
itself by a nonempty chain of the recorded parent→child edges of the
ancestry map, and `false` otherwise. -/
theorem checkCyclic_iff_cyclic (uid : String) (mapping : AncestryMap) :
    checkCyclic uid mapping = true ↔ CyclicSpec uid mapping := by
  constructor
  · intro h
    refine checkCyclicLoop_sound (mapping.length + 1) 0 [uid] ?_ h
    intro x hx
    simp only [List.mem_singleton] at hx
    subst hx
    exact Relation.ReflTransGen.refl
  · intro hcyc
    by_contra hfalse
    have h : checkCyclic uid mapping = false := by
      cases hb : checkCyclic uid mapping
      · rfl
      · exact absurd hb hfalse
    obtain ⟨L, huidL, hclosed⟩ := checkCyclic_false_closure h
    have hanc : ∀ y, Relation.ReflTransGen (hasEdge mapping) y uid → y ∈ L := by
      intro y hy
      induction hy using Relation.ReflTransGen.head_induction_on with
      | refl => exact huidL
      | head hab _ ih => exact (hclosed _ ih).1 _ (mem_getParents.2 hab)
    obtain ⟨c, hc, htail⟩ := Relation.TransGen.head'_iff.1 hcyc
    exact (hclosed c (hanc c htail)).2 (mem_getParents.2 hc)

/-! ## Document model (src/stack.ts)

JSON-ish values.  A reference descriptor `{reference_to, values}` is the
tagged variant `Value.ref`; its `values` component is a single uid string or
an array of uid strings, as in the source data.  The code detects a
descriptor by a truthy `reference_to` property, so a descriptor with an
empty `reference_to` behaves as a plain object (the walk leaves it
unchanged), which the definitions below reproduce. -/

/-- The `values` of a reference descriptor: a scalar uid or a uid sequence. -/
inductive RefValues where
  | one (uid : String)
  | many (uids : List String)
deriving DecidableEq

/-- JSON-ish document values. -/
inductive Value where
  | null
  | bool (b : Bool)
  | num (n : Int)
  | str (s : String)
  | arr (elems : List Value)
  | doc (fields : List (String × Value))
  | ref (reference_to : String) (values : RefValues)

mutual

/-- Structural equality on values (JS `===` on the scalar leaves, deep
equality on containers, as the store's filter comparisons behave on the
JSON documents at hand). -/
def beqValue : Value → Value → Bool
  | Value.null, Value.null => true
  | Value.bool a, Value.bool b => a == b
  | Value.num a, Value.num b => a == b
  | Value.str a, Value.str b => a == b
  | Value.arr as, Value.arr bs => beqValueList as bs
  | Value.doc as, Value.doc bs => beqFieldList as bs
  | Value.ref r v, Value.ref r' v' => r == r' && v == v'
  | _, _ => false

def beqValueList : List Value → List Value → Bool
  | [], [] => true
  | a :: as, b :: bs => beqValue a b && beqValueList as bs
  | _, _ => false

def beqFieldList : List (String × Value) → List (String × Value) → Bool
  | [], [] => true
  | (k, a) :: as, (k', b) :: bs => k == k' && beqValue a b && beqFieldList as bs
  | _, _ => false

end

instance : BEq Value := ⟨beqValue⟩

/-- A document is an insertion-ordered list of named fields. -/
abbrev Fields := List (String × Value)

/-- The flat `contents` collection of heterogeneous documents. -/
abbrev Store := List Fields

/-- JS property access `obj[key]` (a JS object has unique keys; the first
binding wins). -/
def getField (fields : Fields) (key : String) : Option Value :=
  (fields.find? (fun kv => kv.1 == key)).map Prod.snd

/-- Read `entry.uid` as a string; a missing or empty uid is JS-falsy. -/
def uidField (fields : Fields) : Option String :=
  match getField fields "uid" with
  | some (Value.str s) => if s = "" then none else some s
  | _ => none

/-- Model of stack.ts 1057-1059: a truthy `entry.uid` becomes the parent uid. -/
def newParentUid (fields : Fields) (parentUid : Option String) : Option String :=
  match uidField fields with
  | some s => some s
  | none => parentUid

/-- The uid strings of a result set, `map(result, 'uid')` (stack.ts 1101). -/
def uidStrings (result : Store) : List String :=
  result.filterMap (fun d =>
    match getField d "uid" with
    | some (Value.str s) => some s
    | _ => none)

/-! ### A fragment of the MongoDB filter dialect

Just large enough for the filters this SDK itself builds: conjunctions of
field-equality pairs, a top-level `$or` over plain conjunctions, and
`{$in: [...]}` on a field.  The physical store is out of scope of the spec;
this models its documented find/filter behaviour for those filters. -/

/-- One `key: value` condition of a filter document. -/
def matchesPair (d : Fields) (key : String) (v : Value) : Bool :=
  match v with
  | Value.doc [("$in", Value.arr vs)] =>
    match getField d key with
    | some fv => vs.contains fv
    | none => false
  | _ => getField d key == some v

/-- A conjunction of field conditions. -/
def matchesBase (d : Fields) (filt : Fields) : Bool :=
  filt.all (fun kv => matchesPair d kv.1 kv.2)

/-- A filter document: a conjunction whose `$or` key (if any) holds a
disjunction of plain conjunctions. -/
def matchesFilter (d : Fields) : Value → Bool
  | Value.doc pairs =>
    pairs.all (fun kv =>
      if kv.1 == "$or" then
        match kv.2 with
        | Value.arr subs => subs.any (fun sub =>
            match sub with
            | Value.doc sp => matchesBase d sp
            | _ => false)
        | _ => false
      else matchesPair d kv.1 kv.2)
  | _ => false

/-! ## Reference resolver (`includeReferencesI`, stack.ts 1048-1138)

The promise fan-out over the fields of one entry is serialised in object
insertion order, threading the shared ancestry map through the fields (the
spec requires read-modify-write atomicity of that map; the serialisation is
its natural determinisation).  The re-entrant recursion that follows a
fetch is metered by a fuel parameter: every recursive step consumes one
unit, `none` means the fuel ran out.  A run of the source terminates
exactly when some finite fuel makes the model return `some`. -/

/-- The reference query of stack.ts 1081-1087:
`{content_type_uid, locale, uid: {$in: uids}}`. -/
def fetchQuery (rt locale : String) (uids : List String) : Value :=
  Value.doc [("content_type_uid", Value.str rt), ("locale", Value.str locale),
    ("uid", Value.doc [("$in", Value.arr (uids.map Value.str))])]

/-- The store's answer to the reference query (document order is the
store's own, not the requested uid order). -/
def fetchRefs (store : Store) (rt locale : String) (uids : List String) : Store :=
  store.filter (fun d => matchesFilter d (fetchQuery rt locale uids))

/-- The body of the `query.uid.$in.forEach` loop of stack.ts 1109-1116:
look the uid up in the fetched result (`lodash.find`, first match) and push
the document if present. -/
def pushFound (result : Store) (acc : Store) (entityUid : String) : Store :=
  match result.find? (fun entity =>
      getField entity "uid" == some (Value.str entityUid)) with
  | some elem => acc ++ [elem]
  | none => acc

/-- stack.ts 1108-1116: re-sort the fetched documents into the requested
uid order; a uid the store did not return is skipped (no placeholder). -/
def referenceBucket (uids : List String) (result : Store) : Store :=
  uids.foldl (pushFound result) []

/-- Lookup `references[parentUid] || []`. -/
def lookupChildren (references : AncestryMap) (p : String) : List String :=
  match references.find? (fun kv => kv.1 == p) with
  | some kv => kv.2
  | none => []

/-- JS object assignment `references[p] = cs` (update in place or append). -/
def setChildren (references : AncestryMap) (p : String) (cs : List String) :
    AncestryMap :=
  if references.any (fun kv => kv.1 == p) then
    references.map (fun kv => if kv.1 == p then (kv.1, cs) else kv)
  else references ++ [(p, cs)]

/-- stack.ts 1100-1101:
`references[parentUid] = uniq(references[parentUid].concat(map(result, 'uid')))`. -/
def recordChildren (references : AncestryMap) (p : String)
    (childUids : List String) : AncestryMap :=
  setChildren references p (uniqList (lookupChildren references p ++ childUids))

/-- The expansion decision of stack.ts 1066-1067: a field with a truthy
`reference_to` is expanded when the include-references flag is off only if
it refers to `_assets`, and always when the flag is on. -/
def shouldExpand (includeReferences : Bool) (reference_to : String) : Bool :=
  reference_to != "" &&
    ((!includeReferences && reference_to == "_assets") || includeReferences)

/-- JS `entry[prop].values.length` (string length for a scalar uid). -/
def valuesLen : RefValues → Nat
  | RefValues.one u => u.length
  | RefValues.many us => us.length

/-- Model of stack.ts 1072-1074: wrap a scalar uid into a one-element list. -/
def toUids : RefValues → List String
  | RefValues.one u => [u]
  | RefValues.many us => us

mutual

/-- Model of `includeReferencesI(entry, locale, references, parentUid)` on one value
(stack.ts 1048-1138).  Non-objects are returned unchanged; a document makes
its own (truthy) uid the parent uid of its subtree and walks its fields; an
array walks its elements with the same per-field logic. -/
def includeReferencesI (store : Store) (inc : Bool) (locale : String) :
    Nat → Value → AncestryMap → Option String → Option (Value × AncestryMap)
  | 0, _, _, _ => none
  | fuel + 1, Value.doc fields, references, parentUid =>
    match walkFields store inc locale fuel fields references
        (newParentUid fields parentUid) with
    | none => none
    | some (fields', references') => some (Value.doc fields', references')
  | fuel + 1, Value.arr elems, references, parentUid =>
    match walkElems store inc locale fuel elems references parentUid with
    | none => none
    | some (elems', references') => some (Value.arr elems', references')
  | _ + 1, v, references, _ => some (v, references)

/-- The `for (const prop in entry)` loop over a document's fields
(stack.ts 1064-1132), serialised in insertion order. -/
def walkFields (store : Store) (inc : Bool) (locale : String) :
    Nat → Fields → AncestryMap → Option String →
      Option (Fields × AncestryMap)
  | 0, _, _, _ => none
  | _ + 1, [], references, _ => some ([], references)
  | fuel + 1, (key, v) :: rest, references, parentUid =>
    match resolveField store inc locale fuel v references parentUid with
    | none => none
    | some (v', references') =>
      match walkFields store inc locale fuel rest references' parentUid with
      | none => none
      | some (rest', references'') => some ((key, v') :: rest', references'')

/-- The same loop over the indexed elements of an array. -/
def walkElems (store : Store) (inc : Bool) (locale : String) :
    Nat → List Value → AncestryMap → Option String →
      Option (List Value × AncestryMap)
  | 0, _, _, _ => none
  | _ + 1, [], references, _ => some ([], references)
  | fuel + 1, v :: rest, references, parentUid =>
    match resolveField store inc locale fuel v references parentUid with
    | none => none
    | some (v', references') =>
      match walkElems store inc locale fuel rest references' parentUid with
      | none => none
      | some (rest', references'') => some (v' :: rest', references'')

/-- One field position of the walk (stack.ts 1064-1131).  A reference
descriptor that the expansion decision selects is replaced: by `[]` when
its `values` is empty (stack.ts 1068-1069) or when the store returns
nothing (1095-1098); otherwise the fetched documents are substituted (a
single document for a scalar `values`, the re-sorted sequence for an
array), the fetched uids are recorded under the parent uid, and the walk
re-enters the substituted value (1120).  When, for a non-asset reference,
every uid is dropped as cyclic, `if (uids.length)` skips the whole fetch
and the descriptor is left in place (1080).  A descriptor that is not
selected, and any other non-document value, is left unchanged (a
descriptor's interior holds no documents, so recursing into it, as the
source does, changes nothing). -/
def resolveField (store : Store) (inc : Bool) (locale : String) :
    Nat → Value → AncestryMap → Option String → Option (Value × AncestryMap)
  | 0, _, _, _ => none
  | fuel + 1, Value.ref rt vals, references, parentUid =>
    if shouldExpand inc rt then
      if valuesLen vals == 0 then some (Value.arr [], references)
      else
        let uids := if rt == "_assets" then toUids vals
          else (toUids vals).filter (fun u => !(checkCyclic u references))
        if uids.isEmpty then some (Value.ref rt vals, references)
        else
          match fetchRefs store rt locale uids with
          | [] => some (Value.arr [], references)
          | d :: ds =>
            let references' := match parentUid with
              | some p => recordChildren references p (uidStrings (d :: ds))
              | none => references
            let subst := match vals with
              | RefValues.one _ => Value.doc d
              | RefValues.many _ =>
                Value.arr ((referenceBucket uids (d :: ds)).map Value.doc)
            includeReferencesI store inc locale fuel subst references' parentUid
    else some (Value.ref rt vals, references)
  | fuel + 1, Value.doc fields, references, parentUid =>
    includeReferencesI store inc locale fuel (Value.doc fields) references parentUid
  | fuel + 1, Value.arr elems, references, parentUid =>
    includeReferencesI store inc locale fuel (Value.arr elems) references parentUid
  | _ + 1, v, references, _ => some (v, references)

end

/-! ## Claims about the resolver -/

/-- Is a value (still) a reference descriptor? -/
def isRefValue : Value → Bool
  | Value.ref _ _ => true
  | _ => false

theorem walkFields_none_of_head {store : Store} {inc : Bool} {locale : String}
    {fuel : Nat} {k : String} {v : Value} {rest : Fields}
    {references : AncestryMap} {parentUid : Option String}
    (h : resolveField store inc locale fuel v references parentUid = none) :
    walkFields store inc locale (fuel + 1) ((k, v) :: rest) references parentUid
      = none := by
  simp [walkFields, h]

theorem includeReferencesI_none_of_fields {store : Store} {inc : Bool}
    {locale : String} {fuel : Nat} {fields : Fields}
    {references : AncestryMap} {parentUid : Option String}
    (h : walkFields store inc locale fuel fields references
      (newParentUid fields parentUid) = none) :
    includeReferencesI store inc locale (fuel + 1) (Value.doc fields) references
      parentUid = none := by
  simp [includeReferencesI, h]

/-- An `_assets` document in the store whose own field references itself by
an `_assets` descriptor.  Asset references skip the cycle detector
(stack.ts 1075), so the walk re-fetches and re-enters this document without
bound. -/
def assetCycleDoc : Fields :=
  [("file", Value.ref "_assets" (RefValues.one "X")),
   ("uid", Value.str "X"),
   ("content_type_uid", Value.str "_assets"),
   ("locale", Value.str "en-us")]

theorem resolveField_assetCycle {inc : Bool} {fuel : Nat}
    {references : AncestryMap} {pu : Option String} :
    resolveField [assetCycleDoc] inc "en-us" (fuel + 1)
      (Value.ref "_assets" (RefValues.one "X")) references pu =
    includeReferencesI [assetCycleDoc] inc "en-us" fuel (Value.doc assetCycleDoc)
      (match pu with
       | some p => recordChildren references p ["X"]
       | none => references) pu := by
  cases inc <;> cases pu <;> rfl

/-- C2 (code bug): resolving the self-referencing asset document exhausts
every finite fuel: the source recursion never reaches a fixed point on this
store, for either setting of the include-references flag, whatever
ancestry map and parent uid the walk starts from. -/
theorem assetCycle_never_terminates :
    ∀ (fuel : Nat) (inc : Bool) (references : AncestryMap)
      (parentUid : Option String),
      includeReferencesI [assetCycleDoc] inc "en-us" fuel
        (Value.doc assetCycleDoc) references parentUid = none := by
  intro fuel
  induction fuel using Nat.strong_induction_on with
  | _ fuel ih =>
    intro inc references parentUid
    match fuel with
    | 0 => rfl
    | 1 => rfl
    | 2 => rfl
    | (f + 3) =>
      have hrec : includeReferencesI [assetCycleDoc] inc "en-us" f
          (Value.doc assetCycleDoc)
          (recordChildren references "X" ["X"]) (some "X") = none :=
        ih f (by omega) inc _ _
      have hrf : resolveField [assetCycleDoc] inc "en-us" (f + 1)
          (Value.ref "_assets" (RefValues.one "X")) references (some "X")
            = none := by
        rw [resolveField_assetCycle]
        exact hrec
      have hwf : walkFields [assetCycleDoc] inc "en-us" (f + 2) assetCycleDoc
          references (some "X") = none :=
        walkFields_none_of_head hrf
      exact includeReferencesI_none_of_fields hwf

/-- A document walked at a `doc` node stays a `doc` node. -/
theorem includeReferencesI_doc_shape {store : Store} {inc : Bool}
    {locale : String} {fuel : Nat} {fields : Fields}
    {references : AncestryMap} {pu : Option String} {v : Value}
    {references' : AncestryMap}
    (h : includeReferencesI store inc locale fuel (Value.doc fields) references pu
      = some (v, references')) : ∃ fs, v = Value.doc fs := by
  match fuel with
  | 0 => exact absurd h (by simp [includeReferencesI])
  | fuel + 1 =>
    rw [includeReferencesI] at h
    split at h
    · exact absurd h (by simp)
    · rename_i fields' references'' heq
      simp only [Option.some.injEq, Prod.mk.injEq] at h
      exact ⟨fields', h.1.symm⟩

/-- An array walked at an `arr` node stays an `arr` node. -/
theorem includeReferencesI_arr_shape {store : Store} {inc : Bool}
    {locale : String} {fuel : Nat} {elems : List Value}
    {references : AncestryMap} {pu : Option String} {v : Value}
    {references' : AncestryMap}
    (h : includeReferencesI store inc locale fuel (Value.arr elems) references pu
      = some (v, references')) : ∃ es, v = Value.arr es := by
  match fuel with
  | 0 => exact absurd h (by simp [includeReferencesI])
  | fuel + 1 =>
    rw [includeReferencesI] at h
    split at h
    · exact absurd h (by simp)
    · rename_i elems' references'' heq
      simp only [Option.some.injEq, Prod.mk.injEq] at h
      exact ⟨elems', h.1.symm⟩

/-- C3: the expansion decision.  (i) For a detected descriptor (truthy
`reference_to`) the decision equals "refers to assets, or the
include-references flag is on".  (ii) With the flag off, a non-asset
descriptor is returned untouched, ancestry map unchanged.  (iii) An
`_assets` descriptor that the walk finishes is never left as a descriptor:
the substituted value is an expanded document or sequence. -/
theorem reference_expansion_decision :
    (∀ (inc : Bool) (rt : String), rt ≠ "" →
      shouldExpand inc rt = (rt == "_assets" || inc)) ∧
    (∀ (store : Store) (locale : String) (fuel : Nat) (rt : String)
        (vals : RefValues) (references : AncestryMap) (pu : Option String),
      rt ≠ "_assets" →
      resolveField store false locale (fuel + 1) (Value.ref rt vals) references pu
        = some (Value.ref rt vals, references)) ∧
    (∀ (store : Store) (inc : Bool) (locale : String) (fuel : Nat)
        (vals : RefValues) (references : AncestryMap) (pu : Option String)
        (v : Value) (references' : AncestryMap),
      resolveField store inc locale fuel (Value.ref "_assets" vals) references pu
        = some (v, references') →
      isRefValue v = false) := by
  refine ⟨?_, ?_, ?_⟩
  · intro inc rt hrt
    cases inc <;> simp [shouldExpand, hrt, bne_iff_ne]
  · intro store locale fuel rt vals references pu hrt
    have hd : shouldExpand false rt = false := by
      simp [shouldExpand, hrt]
    rw [resolveField, if_neg (by simp [hd])]
  · intro store inc locale fuel vals references pu v references' h
    match fuel with
    | 0 => exact absurd h (by simp [resolveField])
    | fuel + 1 =>
      have hd : shouldExpand inc "_assets" = true := by cases inc <;> rfl
      rw [resolveField, if_pos (by simp [hd])] at h
      by_cases hlen : valuesLen vals == 0
      · rw [if_pos hlen] at h
        simp only [Option.some.injEq, Prod.mk.injEq] at h
        rw [← h.1]
        rfl
      · rw [if_neg hlen] at h
        have htu : (if ("_assets" : String) == "_assets" then toUids vals
            else (toUids vals).filter (fun u => !(checkCyclic u references)))
              = toUids vals := by simp
        have hne : (toUids vals).isEmpty = false := by
          cases vals with
          | one u => rfl
          | many us =>
            cases us with
            | nil => simp [valuesLen] at hlen
            | cons a l => rfl
        simp only [htu, hne, Bool.false_eq_true, if_false] at h
        split at h
        · simp only [Option.some.injEq, Prod.mk.injEq] at h
          rw [← h.1]
          rfl
        · cases vals with
          | one u =>
            obtain ⟨fs, hfs⟩ := includeReferencesI_doc_shape h
            rw [hfs]
            rfl
          | many us =>
            obtain ⟨es, hes⟩ := includeReferencesI_arr_shape h
            rw [hes]
            rfl

/-- Witness for C3 at concrete inputs: `authors` is not expanded with the
flag off, and the decision agrees with "asset or flag". -/
theorem reference_expansion_decision_witness :
    shouldExpand false "authors" = ("authors" == "_assets" || false) ∧
    resolveField [] false "en-us" 1
        (Value.ref "authors" (RefValues.one "blt1")) [] none
      = some (Value.ref "authors" (RefValues.one "blt1"), []) ∧
    isRefValue (Value.arr []) = false := by
  refine ⟨reference_expansion_decision.1 false "authors" (by decide),
    reference_expansion_decision.2.1 [] "en-us" 0 "authors"
      (RefValues.one "blt1") [] none (by decide), ?_⟩
  exact reference_expansion_decision.2.2 [] false "en-us" 1
    (RefValues.one "") [] none (Value.arr []) [] (by rfl)

theorem pushFound_eq (result : Store) (acc : Store) (entityUid : String) :
    pushFound result acc entityUid =
      acc ++ (result.find? (fun entity =>
        getField entity "uid" == some (Value.str entityUid))).toList := by
  rw [pushFound]
  cases result.find? (fun entity =>
    getField entity "uid" == some (Value.str entityUid)) <;> simp

/-- The push-if-found fold equals a `filterMap` over the requested uids. -/
theorem foldl_pushFound (result : Store) :
    ∀ (uids : List String) (acc : Store),
      uids.foldl (pushFound result) acc =
        acc ++ uids.filterMap (fun u => result.find? (fun entity =>
          getField entity "uid" == some (Value.str u))) := by
  intro uids
  induction uids with
  | nil => intro acc; simp
  | cons u rest ih =>
    intro acc
    simp only [List.foldl_cons, List.filterMap_cons, pushFound_eq]
    cases hf : result.find? (fun entity =>
        getField entity "uid" == some (Value.str u)) with
    | none => simp only [hf, Option.toList_none, List.append_nil]; rw [ih]
    | some e => rw [ih]; simp

theorem length_filterMap_eq_length_filter {α β : Type} (f : α → Option β) :
    ∀ (l : List α), (l.filterMap f).length =
      (l.filter (fun x => (f x).isSome)).length := by
  intro l
  induction l with
  | nil => rfl
  | cons a rest ih =>
    simp only [List.filterMap_cons, List.filter_cons]
    cases hf : f a <;> simp [ih]

/-- C4: the sequence substituted for a multi-uid descriptor is the fetched
documents re-sorted into the originally requested uid order; a uid the
store did not return is simply absent (no placeholder), so the bucket is
exactly the per-uid lookups in request order, every element comes from the
fetched result, and its length counts the uids actually found. -/
theorem referenceBucket_order (uids : List String) (result : Store) :
    referenceBucket uids result =
      uids.filterMap (fun u => result.find? (fun entity =>
        getField entity "uid" == some (Value.str u))) ∧
    (∀ d ∈ referenceBucket uids result, d ∈ result) ∧
    (referenceBucket uids result).length =
      (uids.filter (fun u => (result.find? (fun entity =>
        getField entity "uid" == some (Value.str u))).isSome)).length := by
  have h1 : referenceBucket uids result =
      uids.filterMap (fun u => result.find? (fun entity =>
        getField entity "uid" == some (Value.str u))) := by
    rw [referenceBucket, foldl_pushFound result uids []]
    rfl
  refine ⟨h1, ?_, ?_⟩
  · intro d hd
    rw [h1] at hd
    obtain ⟨u, _, hfind⟩ := List.mem_filterMap.1 hd
    exact List.mem_of_find?_eq_some hfind
  · rw [h1]
    exact length_filterMap_eq_length_filter _ uids

/-- C8 counterexample: a descriptor all of whose uids are judged cyclic is
left in place by the walk, not replaced by an empty sequence. -/
theorem allCyclic_descriptor_not_emptied :
    resolveField [] true "en-us" 5 (Value.ref "blog" (RefValues.many ["A"]))
        [("A", ["A"])] none
      = some (Value.ref "blog" (RefValues.many ["A"]), [("A", ["A"])]) ∧
    Value.ref "blog" (RefValues.many ["A"]) ≠ Value.arr [] := by
  exact ⟨rfl, by intro h; exact Value.noConfusion h⟩

/-- C8 as amended: an expanded descriptor is replaced by an empty sequence
when its `values` is empty to begin with; when instead its `values` is
nonempty but every uid is dropped as cyclic, the whole fetch is skipped and
the descriptor is left unchanged (ancestry map untouched). -/
theorem descriptor_empty_cases (store : Store) (inc : Bool) (locale : String)
    (fuel : Nat) (rt : String) (vals : RefValues) (references : AncestryMap)
    (pu : Option String) (hexp : shouldExpand inc rt = true) :
    (valuesLen vals = 0 →
      resolveField store inc locale (fuel + 1) (Value.ref rt vals) references pu
        = some (Value.arr [], references)) ∧
    (valuesLen vals ≠ 0 → rt ≠ "_assets" →
      (toUids vals).filter (fun u => !(checkCyclic u references)) = [] →
      resolveField store inc locale (fuel + 1) (Value.ref rt vals) references pu
        = some (Value.ref rt vals, references)) := by
  constructor
  · intro hlen
    rw [resolveField, if_pos (by simp [hexp]), if_pos (by simp [hlen])]
  · intro hlen hrt hfil
    rw [resolveField, if_pos (by simp [hexp]),
      if_neg (by simp [hlen])]
    have hsel : (if rt == "_assets" then toUids vals
        else (toUids vals).filter (fun u => !(checkCyclic u references)))
          = [] := by
      rw [if_neg (by simp [hrt]), hfil]
    rw [hsel]
    rfl

/-- Witness for C8's amended statement at concrete inputs. -/
theorem descriptor_empty_cases_witness :
    resolveField [] true "en-us" 5 (Value.ref "blog" (RefValues.many []))
        [] none = some (Value.arr [], []) ∧
    resolveField [] true "en-us" 5 (Value.ref "blog" (RefValues.many ["A"]))
        [("A", ["A"])] none
      = some (Value.ref "blog" (RefValues.many ["A"]), [("A", ["A"])]) := by
  constructor
  · exact (descriptor_empty_cases [] true "en-us" 4 "blog" (RefValues.many [])
      [] none (by rfl)).1 (by rfl)
  · exact (descriptor_empty_cases [] true "en-us" 4 "blog"
      (RefValues.many ["A"]) [("A", ["A"])] none (by rfl)).2
      (by decide) (by decide) (by rfl)

/-! ## Query state (the `Stack` class, src/stack.ts)

`q` and `internal` are modelled as explicit records; the MongoDB `db` and
`collection` handles carry no query semantics here beyond presence, so the
collection handle is a flag.  `lodash.merge` is modelled as a recursive
deep merge on the value model (documents merge per key, arrays merge
index-wise, any other source value replaces the destination). -/

mutual

/-- Model of `lodash.merge(dest, src)` on a single value. -/
def mergeValue : Value → Value → Value
  | Value.doc a, Value.doc b => Value.doc (mergeIntoFields a b)
  | Value.arr a, Value.arr b => Value.arr (mergeArrays a b)
  | _, src => src

/-- Merge every source field into the destination object, in order. -/
def mergeIntoFields : Fields → Fields → Fields
  | dest, [] => dest
  | dest, (k, v) :: rest => mergeIntoFields (mergeOneField dest k v) rest

/-- Merge one source field: recursively merge into an existing key (first
occurrence), else append. -/
def mergeOneField : Fields → String → Value → Fields
  | [], k, v => [(k, v)]
  | (k', v') :: dest, k, v =>
    if k' == k then (k', mergeValue v' v) :: dest
    else (k', v') :: mergeOneField dest k v

/-- Index-wise merge of two arrays, keeping the longer tail. -/
def mergeArrays : List Value → List Value → List Value
  | dest, [] => dest
  | [], src => src
  | d :: dest, s :: src => mergeValue d s :: mergeArrays dest src

end

/-- A projection map: field name to `1` (include) or `0` (exclude); one JS
object in insertion order, shared by `only` and `except`. -/
abbrev Projections := List (String × Nat)

/-- The configuration the query pipeline reads (`config` merged with user
overrides in the constructor): default limit, skip, configured locales
(codes, in order) and the baseline default projections. -/
structure Config where
  limit : Nat
  skip : Nat
  locales : List String
  projections : Projections
deriving DecidableEq

/-- The `q` object: query identity and accumulated filter tree. -/
structure QState where
  content_type_uid : Option String := none
  uid : Option String := none
  locale : Option String := none
  query : Option Fields := none

/-- The `internal` object: pagination, projections, sort and flags. -/
structure Internal where
  limit : Option Nat := none
  skip : Option Nat := none
  sort : Option Fields := none
  projections : Option Projections := none
  includeCount : Bool := false
  includeSchema : Bool := false
  includeReferences : Bool := false
  excludeReferences : Bool := false
  queryReferences : Option Value := none
  single : Bool := false

/-- A `Stack` instance: its config, `q`, `internal`, and whether a
collection handle is attached. -/
structure StackState where
  config : Config
  q : QState := {}
  internal : Internal := {}
  collection : Bool := false

/-- The empty `q` object. -/
def emptyQ : QState := {}

/-- The empty `internal` object. -/
def emptyInternal : Internal := {}

/-- Model of `cleanup()` (stack.ts 969-973): drop the collection handle and reset
`internal` and `q` to fresh empty objects. -/
def cleanupStack (cfg : Config) : StackState :=
  { config := cfg, q := {}, internal := {}, collection := false }

/-- Model of `contentType(uid)` (stack.ts 418-428): a fresh instance (new `q`, new
`internal`) carrying only the receiver's config and db, with the content
type uid set and a collection handle attached; a falsy uid throws. -/
def contentType (s : StackState) (uid : String) : Except String StackState :=
  if uid ≠ "" then
    Except.ok { config := s.config,
                q := { content_type_uid := some uid },
                internal := {},
                collection := true }
  else Except.error "Kindly pass the content type uid"

/-- JS object write `proj[field] = v`: update the first occurrence of the
key in place, else append. -/
def setProjection : Projections → String → Nat → Projections
  | [], field, v => [(field, v)]
  | kv :: rest, field, v =>
    if kv.1 == field then (kv.1, v) :: rest
    else kv :: setProjection rest field v

/-- Model of `only(fields)` (stack.ts 582-594): write an include directive (`1`) for
each field into the shared projections object; an empty list throws. -/
def only (fields : List String) (proj : Option Projections) :
    Except String Projections :=
  if fields.isEmpty then
    Except.error "Kindly provide valid field values for only()"
  else Except.ok (fields.foldl (fun m f => setProjection m f 1) (proj.getD []))

/-- Model of `except(fields)` (stack.ts 602-614): write an exclude directive (`0`)
for each field into the same shared projections object. -/
def except (fields : List String) (proj : Option Projections) :
    Except String Projections :=
  if fields.isEmpty then
    Except.error "Kindly provide valid field values for except()"
  else Except.ok (fields.foldl (fun m f => setProjection m f 0) (proj.getD []))

/-- Model of `lodash.merge` of two flat projection objects: source entries override
or extend the destination. -/
def mergeProjections (dest src : Projections) : Projections :=
  src.foldl (fun acc kv => setProjection acc kv.1 kv.2) dest

/-- JS object write `obj[k] = v` on a document. -/
def setFieldValue : Fields → String → Value → Fields
  | [], k, v => [(k, v)]
  | kv :: rest, k, v =>
    if kv.1 == k then (kv.1, v) :: rest
    else kv :: setFieldValue rest k v

/-- The object literal `{content_type_uid, locale, ...this.q.query}`
(stack.ts 937-941): spread entries overwrite earlier keys in place. -/
def spreadInto (base : Fields) (extra : Fields) : Fields :=
  extra.foldl (fun acc kv => setFieldValue acc kv.1 kv.2) base

/-- A JS string-or-undefined as a value (undefined rendered as null). -/
def optStrV : Option String → Value
  | some s => Value.str s
  | none => Value.null

/-- The output of the filter compiler: the updated `q` and `internal`
objects and the compiled store filter. -/
structure Compiled where
  q : QState
  internal : Internal
  filters : Value

/-- Model of `preProcess(query)` (stack.ts 906-963).  In source order: merge the
override query into `q.query` (or reset it to `{}` when unset, discarding
the override); merge user projections over the configured defaults; default
a falsy limit and skip (note: a requested limit of `0` is JS-falsy and is
replaced by the default); default the locale to the first configured locale
code and drop it for content-type-schema queries; build the filter object;
when schema inclusion is requested, reserve one extra limit slot and wrap
the filter in `$or` with `{uid: content_type_uid}`.  The sort spec only
reorders the store's response and is not modelled. -/
def preProcess (cfg : Config) (q : QState) (internal : Internal)
    (query : Fields) : Compiled :=
  let qquery : Fields :=
    match q.query with
    | some qq => mergeIntoFields qq query
    | none => []
  let projections :=
    match internal.projections with
    | some p => mergeProjections cfg.projections p
    | none => cfg.projections
  let limit :=
    match internal.limit with
    | some n => if n = 0 then cfg.limit else n
    | none => cfg.limit
  let skip :=
    match internal.skip with
    | some n => if n = 0 then cfg.skip else n
    | none => cfg.skip
  let locale0 :=
    match q.locale with
    | some l => some l
    | none => cfg.locales.head?
  let locale :=
    if q.content_type_uid == some "contentTypes" then none else locale0
  let filters : Fields :=
    spreadInto [("content_type_uid", optStrV q.content_type_uid),
                ("locale", optStrV locale)] qquery
  { q := { q with query := some qquery, locale := locale },
    internal := { internal with
      limit := some (if internal.includeSchema then limit + 1 else limit),
      skip := some skip,
      projections := some projections },
    filters :=
      if internal.includeSchema then
        Value.doc [("$or", Value.arr [Value.doc filters,
          Value.doc [("uid", optStrV q.content_type_uid)]])]
      else Value.doc filters }

/-- The shaped response envelope (§ Result Shaper). -/
inductive ResultBody where
  | single (d : Option Fields)
  | many (ds : List Fields)

/-- The response envelope: kind key, its value, and optional metadata. -/
structure Envelope where
  key : String
  body : ResultBody
  count : Option Nat := none
  content_type : Option Fields := none
  content_type_uid : Option String := none
  locale : Option String := none

/-- Model of `postProcess(result, contentType)` (stack.ts 981-1037): wrap the result
under a key chosen by content kind and the single flag (`result[0]` for a
single result, which is `none` on an empty page), attach `count` — the
length of the result array as handed in, i.e. after the store applied
limit/skip — when requested, attach the spliced-out schema document when
requested, rename the reserved asset kind, and attach metadata. -/
def postProcess (q : QState) (internal : Internal) (result : List Fields)
    (ctype : Option Fields) : Envelope :=
  { key :=
      match q.content_type_uid with
      | some "_assets" => if internal.single then "asset" else "assets"
      | some "contentTypes" =>
        if internal.single then "content_type" else "content_types"
      | _ => if internal.single then "entry" else "entries",
    body :=
      if internal.single then ResultBody.single result.head?
      else ResultBody.many result,
    count := if internal.includeCount then some result.length else none,
    content_type := if internal.includeSchema then ctype else none,
    content_type_uid :=
      if q.content_type_uid == some "_assets" then some "assets"
      else q.content_type_uid,
    locale := q.locale }

/-- The lodash matcher `{uid: ctUid}` used by the schema splice. -/
def uidIs (ctUid : Option String) (d : Fields) : Bool :=
  match ctUid with
  | some s => getField d "uid" == some (Value.str s)
  | none => false

/-- Model of the schema splice (stack.ts 813-817): take the
schema document out of the page; the first removed document (or none)
becomes the attached schema. -/
def extractSchema (ctUid : Option String) (result : List Fields) :
    Option Fields × List Fields :=
  ((result.filter (fun d => uidIs ctUid d)).head?,
    result.filter (fun d => !(uidIs ctUid d)))

/-- Unwrap a resolved document node. -/
def asDoc : Value → Option Fields
  | Value.doc fs => some fs
  | _ => none

/-- Resolution of a fetched page, stack.ts 825: `includeReferencesI` on the
array of documents, with a fresh empty ancestry map and no parent uid. -/
def resolveDocs (store : Store) (inc : Bool) (locale : String) (fuel : Nat)
    (docs : List Fields) : Option (List Fields) :=
  match includeReferencesI store inc locale fuel
      (Value.arr (docs.map Value.doc)) [] none with
  | some (Value.arr vs, _) => some (vs.filterMap asDoc)
  | _ => none

/-- Model of `find(query)` (stack.ts 795-844) and, on the slow path,
`queryOnReferences` (864-899).  The two external failure points — the
primary store fetch and the reference-resolution fan-out — are inputs
(`primary`, `refOutcome`): the store is out of scope and either promise may
reject.  On the fast path the store applies skip then limit; on the
`queryReferences` path limit/skip are commented out in the source, the
fully resolved page is filtered in memory (`sift`) and then spliced (a
JS-falsy skip of `0` falls through to the limit-only splice).  Both `catch`
handlers call `cleanup()` before rejecting.  The outer `Option` is the
resolver's fuel meter (`none`: out of fuel, a model artifact). -/
def findModel (store : Store) (s : StackState) (query : Fields)
    (primary : Except String Unit) (refOutcome : Except String Unit)
    (fuel : Nat) : Option (StackState × Except String Envelope) :=
  let c := preProcess s.config s.q s.internal query
  let limitv := c.internal.limit.getD 0
  let skipv := c.internal.skip.getD 0
  let localev := c.q.locale.getD ""
  match c.internal.queryReferences with
  | some qr =>
    match primary with
    | Except.error e => some (cleanupStack s.config, Except.error e)
    | Except.ok _ =>
      match refOutcome with
      | Except.error e => some (cleanupStack s.config, Except.error e)
      | Except.ok _ =>
        match resolveDocs store c.internal.includeReferences localev fuel
            (store.filter (fun d => matchesFilter d c.filters)) with
        | none => none
        | some resolved =>
          let sifted := resolved.filter (fun d => matchesFilter d qr)
          let spliced :=
            if skipv ≠ 0 then (sifted.drop skipv).take limitv
            else if limitv ≠ 0 then sifted.take limitv
            else sifted
          some (cleanupStack s.config,
            Except.ok (postProcess c.q c.internal spliced none))
  | none =>
    match primary with
    | Except.error e => some (cleanupStack s.config, Except.error e)
    | Except.ok _ =>
      let fetched :=
        ((store.filter (fun d => matchesFilter d c.filters)).drop skipv).take
          limitv
      let pair :=
        if c.internal.includeSchema then
          extractSchema c.q.content_type_uid fetched
        else (none, fetched)
      if c.internal.excludeReferences then
        some (cleanupStack s.config,
          Except.ok (postProcess c.q c.internal pair.2 pair.1))
      else
        match refOutcome with
        | Except.error e => some (cleanupStack s.config, Except.error e)
        | Except.ok _ =>
          match resolveDocs store c.internal.includeReferences localev fuel
              pair.2 with
          | none => none
          | some resolved =>
            some (cleanupStack s.config,
              Except.ok (postProcess c.q c.internal resolved pair.1))

/-- Model of `findOne(query)` (stack.ts 854-862): set the single flag, then `find`. -/
def findOneModel (store : Store) (s : StackState) (query : Fields)
    (primary : Except String Unit) (refOutcome : Except String Unit)
    (fuel : Nat) : Option (StackState × Except String Envelope) :=
  findModel store
    { s with internal := { s.internal with single := true } }
    query primary refOutcome fuel

/-! ## C6: projection algebra of `only` / `except` -/

/-- Lookup of a field's directive in a projections object. -/
def lookupProjection (m : Projections) (f : String) : Option Nat :=
  (m.find? (fun kv => kv.1 == f)).map Prod.snd

theorem lookup_setProjection (m : Projections) (f g : String) (v : Nat) :
    lookupProjection (setProjection m g v) f =
      if f = g then some v else lookupProjection m f := by
  induction m with
  | nil =>
    by_cases hfg : f = g
    · subst hfg
      simp [setProjection, lookupProjection, List.find?]
    · have hgf : (g == f) = false := by
        rw [beq_eq_false_iff_ne]
        exact fun h => hfg h.symm
      simp [setProjection, lookupProjection, List.find?, hfg, hgf]
  | cons kv rest ih =>
    by_cases hkg : (kv.1 == g) = true
    · rw [setProjection, if_pos hkg]
      by_cases hfg : f = g
      · subst hfg
        have hkf : (kv.1 == f) = true := hkg
        simp [lookupProjection, List.find?, hkf]
      · rw [if_neg hfg]
        have hkf : (kv.1 == f) = false := by
          rw [beq_eq_false_iff_ne]
          intro hk
          exact hfg (hk ▸ beq_iff_eq.1 hkg)
        simp only [lookupProjection, List.find?, hkf]
    · rw [setProjection, if_neg (by simp [hkg])]
      by_cases hkf : (kv.1 == f) = true
      · have hfg : ¬(f = g) := by
          intro h
          exact hkg (beq_iff_eq.2 ((beq_iff_eq.1 hkf).trans h))
        rw [if_neg hfg]
        simp only [lookupProjection, List.find?, hkf]
      · have hkf' : (kv.1 == f) = false := by simpa using hkf
        simp only [lookupProjection, List.find?, hkf']
        exact ih

theorem setProjection_of_lookup_eq (m : Projections) (f : String) (v : Nat)
    (h : lookupProjection m f = some v) : setProjection m f v = m := by
  induction m with
  | nil => simp [lookupProjection, List.find?] at h
  | cons kv rest ih =>
    by_cases hkf : (kv.1 == f) = true
    · simp [lookupProjection, List.find?, hkf] at h
      rw [setProjection, if_pos hkf, ← h]
    · have hkf' : (kv.1 == f) = false := by simpa using hkf
      simp only [lookupProjection, List.find?, hkf'] at h
      rw [setProjection, if_neg (by simp [hkf']), ih h]

theorem lookup_foldl_only (fields : List String) :
    ∀ (m : Projections) (f : String),
      lookupProjection (fields.foldl (fun acc g => setProjection acc g 1) m) f =
        if f ∈ fields then some 1 else lookupProjection m f := by
  induction fields with
  | nil =>
    intro m f
    rw [List.foldl_nil, if_neg (by simp)]
  | cons g rest ih =>
    intro m f
    simp only [List.foldl_cons]
    rw [ih]
    by_cases hfr : f ∈ rest
    · simp [hfr]
    · rw [if_neg hfr, lookup_setProjection]
      by_cases hfg : f = g
      · simp [hfg]
      · simp [hfg, hfr]

theorem foldl_only_fixed (fields : List String) :
    ∀ (m : Projections),
      (∀ f ∈ fields, lookupProjection m f = some 1) →
      fields.foldl (fun acc g => setProjection acc g 1) m = m := by
  induction fields with
  | nil => intro m _; rfl
  | cons g rest ih =>
    intro m hall
    simp only [List.foldl_cons]
    rw [setProjection_of_lookup_eq m g 1 (hall g (by simp))]
    exact ih m (fun f hf => hall f (by simp [hf]))

theorem mem_keys_setProjection (m : Projections) (f g : String) (v : Nat) :
    g ∈ (setProjection m f v).map Prod.fst ↔
      g ∈ m.map Prod.fst ∨ g = f := by
  induction m with
  | nil => simp [setProjection]
  | cons kv rest ih =>
    by_cases hkf : kv.1 == f
    · rw [setProjection, if_pos hkf]
      simp only [List.map_cons, List.mem_cons]
      constructor
      · rintro (h | h)
        · exact Or.inl (Or.inl h)
        · exact Or.inl (Or.inr h)
      · rintro ((h | h) | h)
        · exact Or.inl h
        · exact Or.inr h
        · exact Or.inl (h ▸ (beq_iff_eq.1 hkf).symm)
    · rw [setProjection, if_neg (by simp [hkf])]
      simp only [List.map_cons, List.mem_cons, ih]
      tauto

theorem nodup_keys_setProjection (m : Projections) (f : String) (v : Nat)
    (h : (m.map Prod.fst).Nodup) :
    ((setProjection m f v).map Prod.fst).Nodup := by
  induction m with
  | nil => simp [setProjection]
  | cons kv rest ih =>
    simp only [List.map_cons, List.nodup_cons] at h
    by_cases hkf : kv.1 == f
    · rw [setProjection, if_pos hkf]
      simp only [List.map_cons, List.nodup_cons]
      exact h
    · rw [setProjection, if_neg (by simp [hkf])]
      simp only [List.map_cons, List.nodup_cons]
      refine ⟨?_, ih h.2⟩
      rw [mem_keys_setProjection]
      rintro (hm | hm)
      · exact h.1 hm
      · exact absurd (beq_iff_eq.2 hm) (by simpa using hkf)

theorem nodup_keys_foldl_set (fields : List String) (v : Nat) :
    ∀ (m : Projections), (m.map Prod.fst).Nodup →
      ((fields.foldl (fun acc g => setProjection acc g v) m).map Prod.fst).Nodup := by
  induction fields with
  | nil => intro m h; exact h
  | cons g rest ih =>
    intro m h
    simp only [List.foldl_cons]
    exact ih _ (nodup_keys_setProjection m g v h)

theorem nodup_keys_unique_directive (m : Projections)
    (h : (m.map Prod.fst).Nodup) :
    ∀ f a b, (f, a) ∈ m → (f, b) ∈ m → a = b := by
  induction m with
  | nil => intro f a b ha; simp at ha
  | cons kv rest ih =>
    simp only [List.map_cons, List.nodup_cons] at h
    intro f a b ha hb
    simp only [List.mem_cons] at ha hb
    rcases ha with ha | ha <;> rcases hb with hb | hb
    · exact congrArg Prod.snd (ha.trans hb.symm)
    · have hf1 : f = kv.1 := congrArg Prod.fst ha
      have hmem : f ∈ rest.map Prod.fst := List.mem_map_of_mem Prod.fst hb
      rw [hf1] at hmem
      exact absurd hmem h.1
    · have hf1 : f = kv.1 := congrArg Prod.fst hb
      have hmem : f ∈ rest.map Prod.fst := List.mem_map_of_mem Prod.fst ha
      rw [hf1] at hmem
      exact absurd hmem h.1
    · exact ih h.2 f a b ha hb

/-- C6 counterexample: a chain that calls `only(['title'])` and then
`except(['body'])` produces one projection containing both the include
directive and the exclude directive — the projection built from the
inclusion list does also contain a field implied by the exclusion list set
in the same chain. -/
theorem only_except_mix_counterexample :
    only ["title"] none = Except.ok [("title", 1)] ∧
    except ["body"] (some [("title", 1)]) =
      Except.ok [("title", 1), ("body", 0)] ∧
    ("body", 0) ∈ [("title", 1), ("body", 0)] ∧
    ("title", 1) ∈ [("title", 1), ("body", 0)] := by
  refine ⟨rfl, rfl, by simp, by simp⟩

/-- C6 as amended: the shared projections object maps each field to at most
one directive — a field named by both lists carries the directive of the
later call, never both — and applying `only` again with the same field list
returns the same projection (idempotence). -/
theorem only_idempotent_single_directive (fields : List String)
    (projIn : Option Projections) (p : Projections)
    (hin : ∀ m, projIn = some m → (m.map Prod.fst).Nodup)
    (h : only fields projIn = Except.ok p) :
    only fields (some p) = Except.ok p ∧
    (p.map Prod.fst).Nodup ∧
    (∀ f a b, (f, a) ∈ p → (f, b) ∈ p → a = b) := by
  rw [only] at h
  by_cases hne : fields.isEmpty
  · rw [if_pos hne] at h
    exact absurd h (by simp)
  · rw [if_neg hne] at h
    simp only [Except.ok.injEq] at h
    have hbase : ((projIn.getD []).map Prod.fst).Nodup := by
      cases projIn with
      | none => simp
      | some m => exact hin m rfl
    have hnodup : (p.map Prod.fst).Nodup :=
      h ▸ nodup_keys_foldl_set fields 1 _ hbase
    refine ⟨?_, hnodup, nodup_keys_unique_directive p hnodup⟩
    rw [only, if_neg hne]
    congr 1
    simp only [Option.getD_some]
    refine foldl_only_fixed fields p ?_
    intro f hf
    rw [← h, lookup_foldl_only, if_pos hf]

/-- Witness for C6's amended statement: `only(['title'])` on a projection
already holding an exclusion is idempotent and keeps one directive per
field. -/
theorem only_idempotent_single_directive_witness :
    only ["title"] (some [("body", 0), ("title", 1)]) =
      Except.ok [("body", 0), ("title", 1)] ∧
    ((([("body", 0), ("title", 1)] : Projections)).map Prod.fst).Nodup := by
  have h := only_idempotent_single_directive ["title"]
    (some [("body", 0)]) [("body", 0), ("title", 1)]
    (by intro m hm; cases hm; simp) (by rfl)
  exact ⟨h.1, h.2.1⟩

/-! ## Concrete artifacts for counterexamples and witnesses -/

/-- A concrete configuration: the documented defaults (limit 100, skip 0),
one configured locale, empty baseline projections. -/
def cfg0 : Config :=
  { limit := 100, skip := 0, locales := ["en-us"], projections := [] }

/-- A concrete `blog` entry document. -/
def blogDoc (u : String) : Fields :=
  [("uid", Value.str u), ("content_type_uid", Value.str "blog"),
   ("locale", Value.str "en-us"), ("title", Value.str u)]

/-- A store with three matching `blog` documents. -/
def store0 : Store := [blogDoc "e1", blogDoc "e2", blogDoc "e3"]

/-- A query chain on `blog` with limit 2, `includeCount` and
`excludeReferences` set. -/
def chain0 : StackState :=
  { config := cfg0,
    q := { content_type_uid := some "blog" },
    internal := { limit := some 2, includeCount := true,
                  excludeReferences := true },
    collection := true }

/-! ## C5: the `count` attached by `includeCount` -/

/-- C5 counterexample: three documents match the compiled filter, the limit
is 2, and the returned envelope's `count` is 2 (the length of the truncated
page), not 3 as the claim states. -/
theorem includeCount_not_pretruncation :
    (store0.filter (fun d => matchesFilter d
        (preProcess cfg0 chain0.q chain0.internal []).filters)).length = 3 ∧
    (findModel store0 chain0 [] (Except.ok ()) (Except.ok ()) 1).map
        (fun r => match r.2 with
          | Except.ok env => (env.count, match env.body with
              | ResultBody.many ds => ds.length
              | ResultBody.single _ => 0)
          | Except.error _ => (none, 0))
      = some (some 2, 2) ∧
    (some 2 : Option Nat) ≠ some 3 :=
  ⟨rfl, rfl, by decide⟩

/-- C5 as amended: with `includeCount` set, the envelope's `count` equals
the length of the result sequence as returned — after the store applied
limit and skip — and that sequence is returned unchanged as the plural
body. -/
theorem includeCount_counts_returned (q : QState) (internal : Internal)
    (result : List Fields) (ctype : Option Fields)
    (hc : internal.includeCount = true) :
    (postProcess q internal result ctype).count = some result.length ∧
    (internal.single = false →
      (postProcess q internal result ctype).body = ResultBody.many result) := by
  constructor
  · simp [postProcess, hc]
  · intro hs
    simp [postProcess, hs]

/-- Witness for C5's amended statement at a concrete two-document page. -/
theorem includeCount_counts_returned_witness :
    (postProcess { content_type_uid := some "blog" }
      { includeCount := true } [blogDoc "e1", blogDoc "e2"] none).count
        = some 2 ∧
    (postProcess { content_type_uid := some "blog" }
      { includeCount := true } [blogDoc "e1", blogDoc "e2"] none).body
        = ResultBody.many [blogDoc "e1", blogDoc "e2"] := by
  have h := includeCount_counts_returned { content_type_uid := some "blog" }
    { includeCount := true } [blogDoc "e1", blogDoc "e2"] none rfl
  exact ⟨h.1, h.2 rfl⟩

/-! ## C7: the schema-inclusion widening -/

/-- C7 counterexample: a requested limit of `0` is valid for `limit()` but
JS-falsy, so `preProcess` replaces it with the default (100) before adding
the schema slot: the effective limit is 101, not `0 + 1` as the claim
states. -/
theorem includeSchema_limit_zero_counterexample :
    (preProcess cfg0 { content_type_uid := some "blog" }
      { limit := some 0, includeSchema := true } []).internal.limit
        = some 101 ∧
    (0 : Nat) + 1 ≠ 101 :=
  ⟨rfl, by decide⟩

/-- C7 as amended: with schema inclusion requested, the compiled filter is
the `$or` of the primary filter (what the same chain compiles without
schema inclusion) and `{uid: content_type_uid}`, and the effective limit is
one more than the limit the same chain compiles without schema inclusion
(the requested limit if nonzero, else the default). -/
theorem includeSchema_or_filter (cfg : Config) (q : QState)
    (internal : Internal) (query : Fields)
    (hs : internal.includeSchema = true) :
    (preProcess cfg q internal query).filters =
      Value.doc [("$or", Value.arr
        [(preProcess cfg q { internal with includeSchema := false }
            query).filters,
         Value.doc [("uid", optStrV q.content_type_uid)]])] ∧
    (∀ L, (preProcess cfg q { internal with includeSchema := false }
        query).internal.limit = some L →
      (preProcess cfg q internal query).internal.limit = some (L + 1)) := by
  constructor
  · simp [preProcess, hs]
  · intro L hL
    simp only [preProcess, hs] at hL ⊢
    simp only [Option.some.injEq] at hL
    simp [← hL]

/-- Witness for C7's amended statement at a concrete chain. -/
theorem includeSchema_or_filter_witness :
    (preProcess cfg0 { content_type_uid := some "blog" }
        ({ includeSchema := true } : Internal) []).filters =
      Value.doc [("$or", Value.arr
        [(preProcess cfg0 { content_type_uid := some "blog" }
            ({ includeSchema := false } : Internal) []).filters,
         Value.doc [("uid", optStrV (some "blog"))]])] ∧
    (preProcess cfg0 { content_type_uid := some "blog" }
        ({ includeSchema := true } : Internal) []).internal.limit
      = some (100 + 1) := by
  have h := includeSchema_or_filter cfg0 { content_type_uid := some "blog" }
    { includeSchema := true } [] rfl
  exact ⟨h.1, h.2 100 rfl⟩

/-! ## C9: failure resets the query state -/

theorem findModel_state_cleaned {store : Store} {s : StackState}
    {query : Fields} {primary refOutcome : Except String Unit} {fuel : Nat}
    {s' : StackState} {r : Except String Envelope}
    (h : findModel store s query primary refOutcome fuel = some (s', r)) :
    s' = cleanupStack s.config := by
  simp only [findModel] at h
  repeat' split at h
  all_goals first
    | exact Option.noConfusion h
    | (injection h with h2
       exact (congrArg Prod.fst h2).symm)

/-- C9: whenever `find` (or `findOne`) completes with an error — a primary
store failure or a reference-resolution failure, on the normal path or the
`queryReferences` path — the surfaced state is the cleaned one: `q` and
`internal` reset to fresh empty objects, the collection handle dropped; and
the error branch carries no documents. -/
theorem find_failure_resets_state :
    (∀ (store : Store) (s : StackState) (query : Fields)
        (primary refOutcome : Except String Unit) (fuel : Nat)
        (s' : StackState) (e : String),
      findModel store s query primary refOutcome fuel
          = some (s', Except.error e) →
      s'.q = emptyQ ∧ s'.internal = emptyInternal ∧ s'.collection = false) ∧
    (∀ (store : Store) (s : StackState) (query : Fields)
        (primary refOutcome : Except String Unit) (fuel : Nat)
        (s' : StackState) (e : String),
      findOneModel store s query primary refOutcome fuel
          = some (s', Except.error e) →
      s'.q = emptyQ ∧ s'.internal = emptyInternal ∧ s'.collection = false) := by
  constructor
  · intro store s query primary refOutcome fuel s' e h
    rw [findModel_state_cleaned h]
    exact ⟨rfl, rfl, rfl⟩
  · intro store s query primary refOutcome fuel s' e h
    rw [findModel_state_cleaned h]
    exact ⟨rfl, rfl, rfl⟩

/-- Witness for C9: a failing primary fetch on a concrete chain surfaces
the error with the state fully reset. -/
theorem find_failure_resets_state_witness :
    findModel store0 chain0 [] (Except.error "boom") (Except.ok ()) 1
      = some (cleanupStack cfg0, Except.error "boom") ∧
    (cleanupStack cfg0).q = emptyQ ∧
    (cleanupStack cfg0).internal = emptyInternal ∧
    (cleanupStack cfg0).collection = false := by
  refine ⟨rfl, ?_⟩
  exact find_failure_resets_state.1 store0 chain0 []
    (Except.error "boom") (Except.ok ()) 1 (cleanupStack cfg0) "boom" rfl

/-! ## C10: `contentType` starts a fresh chain -/

/-- C10: for a truthy uid, `contentType` returns a fresh instance whose `q`
holds only the content type uid and whose `internal` is empty, with a
collection handle attached; and the result depends only on the receiver's
config (and db), so filters and flags accumulated on any other chain never
leak into the new one.  (The receiver itself is not mutated: `contentType`
builds a new instance.) -/
theorem contentType_fresh (s : StackState) (uid : String) (h : uid ≠ "") :
    contentType s uid = Except.ok
      { config := s.config, q := { content_type_uid := some uid },
        internal := emptyInternal, collection := true } ∧
    ∀ t : StackState, t.config = s.config →
      contentType t uid = contentType s uid := by
  constructor
  · rw [contentType, if_pos h]
    rfl
  · intro t ht
    rw [contentType, contentType, ht]

/-- A chain with junk accumulated state, for the C10 witness. -/
def junkState : StackState :=
  { config := cfg0,
    q := { content_type_uid := some "old", locale := some "fr-fr",
           query := some [("title", Value.str "x")] },
    internal := { limit := some 7, includeCount := true },
    collection := true }

/-- Witness for C10: starting a chain from a dirty instance yields the same
fresh state as starting it from a clean instance with the same config. -/
theorem contentType_fresh_witness :
    contentType junkState "blog" = Except.ok
      { config := cfg0, q := { content_type_uid := some "blog" },
        internal := emptyInternal, collection := true } ∧
    contentType (cleanupStack cfg0) "blog" = contentType junkState "blog" := by
  have h := contentType_fresh junkState "blog" (by decide)
  exact ⟨h.1, h.2 (cleanupStack cfg0) rfl⟩

end DataSync
